import Mathlib

/-!
# Verification of the shared-hash LRU cache (`lru_cache`)

Shallow embedding of the repository's final "shared-hash" variant:

* `src/shared_hash/hasher.rs` — the hash-injection protocol
  (`signal_inject_hash`, `SignalledInjectionHasher`), modelled for both
  compilation profiles of the Rust source: the `debug_assertions` build
  (where `debug_assert!` aborts, modelled with `Option`) and the release
  build (where `debug_assert!` is a no-op).
* `src/shared_hash.rs` — the cache proper (`DhCache` with `put`/`get`),
  its token types (`Key`, `Idx`, `KeyAndIdx`, `Kwrap`) and the entry
  store (`HashMap` keyed by `KeyAndIdx` under the injection hasher).
* `src/lib.rs` — the `InsertionIndex` trait; the `u8` instance's
  `increment` (`*self += 1`) is modelled with its release-profile
  wrapping semantics where overflow matters.

Machine integers are modelled as `Nat` (`u64` fingerprints, `usize`
lengths); overflow is made explicit (`% 256` for the wrapping `u8`
insertion index) exactly where the source can overflow.
-/

namespace LruCache

/-! ## Hash-injection protocol (`src/shared_hash/hasher.rs`)

The wrapped (underlying) hasher is modelled abstractly as the list of
write events it has absorbed; its `finish` is an arbitrary function
`finishU : List WriteEv → Nat` standing for the concrete accumulator
(`RandomState`'s hasher in the source). -/

/-- One write call forwarded to the wrapped hasher. The source's
`Hasher` impl has one method per integer width, all of the same
pass-through shape as `u8` below; we model the methods the cache and the
claims exercise. -/
inductive WriteEv where
  | bytes (bs : List Nat)
  | u8 (i : Nat)
  | u64 (i : Nat)
  | usizeW (i : Nat)
  | lengthPre (n : Nat)
  | str (s : String)
deriving DecidableEq

/-- `const SIGNALLED_LENGTH_PREFIX: usize = usize::MAX;` (64-bit target). -/
def SIGNALLED_LENGTH_PREFIX : Nat := 2 ^ 64 - 1

/-- `enum SignalState`. The source declares `Signalled` only under
`debug_assertions` and `HashInjected` only in release; we keep all four
variants in one type and use the build-appropriate ones in each model. -/
inductive SignalState where
  | notSignalled
  | signalled
  | hashInjected (h : Nat)
  | hashSignaled (h : Nat)
deriving DecidableEq

/-- `struct SignalledInjectionHasher<H> { hasher: H, state: SignalState }`,
with the wrapped hasher `H` represented by its absorbed write events. -/
structure SignalledInjectionHasher where
  hasher : List WriteEv
  state : SignalState
deriving DecidableEq

/-- `SignalledInjectionBuildHasher::build_hasher`, which wraps a fresh
underlying hasher via `SignalledInjectionHasher::new`. -/
def buildHasher : SignalledInjectionHasher :=
  { hasher := [], state := .notSignalled }

/-! ### Release build (`#[cfg(not(debug_assertions))]`, asserts are no-ops) -/

/-- `Hasher::write` for the wrapper (release): pass-through, state untouched. -/
def writeBytesR (bs : List Nat) (s : SignalledInjectionHasher) : SignalledInjectionHasher :=
  { s with hasher := s.hasher ++ [.bytes bs] }

/-- `write_u8` (release): pass-through, state untouched. -/
def writeU8R (i : Nat) (s : SignalledInjectionHasher) : SignalledInjectionHasher :=
  { s with hasher := s.hasher ++ [.u8 i] }

/-- `write_usize` (release): pass-through, state untouched. -/
def writeUsizeR (i : Nat) (s : SignalledInjectionHasher) : SignalledInjectionHasher :=
  { s with hasher := s.hasher ++ [.usizeW i] }

/-- `write_str` (release): pass-through, state untouched. -/
def writeStrR (t : String) (s : SignalledInjectionHasher) : SignalledInjectionHasher :=
  { s with hasher := s.hasher ++ [.str t] }

/-- `write_u64` (release): unconditionally records `HashInjected(i)` and
forwards the word to the wrapped hasher. -/
def writeU64R (i : Nat) (s : SignalledInjectionHasher) : SignalledInjectionHasher :=
  { hasher := s.hasher ++ [.u64 i], state := .hashInjected i }

/-- `write_length_prefix` (release): the signal marker observed in state
`HashInjected(i)` completes the injection (`HashSignaled(i)`, nothing
forwarded); every other case forwards and leaves the state unchanged. -/
def writeLengthPrefixR (n : Nat) (s : SignalledInjectionHasher) : SignalledInjectionHasher :=
  match s.state with
  | .hashInjected i =>
    if n = SIGNALLED_LENGTH_PREFIX then { s with state := .hashSignaled i }
    else { s with hasher := s.hasher ++ [.lengthPre n] }
  | _ => { s with hasher := s.hasher ++ [.lengthPre n] }

/-- `Hasher::finish` (release): the injected hash in state
`HashSignaled`, otherwise the wrapped hasher's result. -/
def finishR (finishU : List WriteEv → Nat) (s : SignalledInjectionHasher) : Nat :=
  match s.state with
  | .hashSignaled h => h
  | _ => finishU s.hasher

/-- `signal_inject_hash` (release order): `write_u64(hash)` then
`write_length_prefix(SIGNALLED_LENGTH_PREFIX)`. -/
def signalInjectHashR (hash : Nat) (s : SignalledInjectionHasher) : SignalledInjectionHasher :=
  writeLengthPrefixR SIGNALLED_LENGTH_PREFIX (writeU64R hash s)

/-! ### Debug build (`#[cfg(debug_assertions)]`, `debug_assert!` aborts: `none`) -/

/-- `write_u8` (debug): asserts the state is `NotSignalled`, then forwards. -/
def writeU8D (i : Nat) (s : SignalledInjectionHasher) : Option SignalledInjectionHasher :=
  if s.state = .notSignalled then some { s with hasher := s.hasher ++ [.u8 i] } else none

/-- `write_u64` (debug): from `Signalled` captures `HashSignaled(i)`;
otherwise asserts `NotSignalled`. In both cases the word is forwarded
(the forwarding call sits outside the `cfg` blocks in the source). -/
def writeU64D (i : Nat) (s : SignalledInjectionHasher) : Option SignalledInjectionHasher :=
  if s.state = .signalled then
    some { hasher := s.hasher ++ [.u64 i], state := .hashSignaled i }
  else if s.state = .notSignalled then
    some { s with hasher := s.hasher ++ [.u64 i] }
  else none

/-- `write_length_prefix` (debug): the signal marker moves to
`Signalled` (nothing forwarded); any other length asserts `NotSignalled`
and forwards. -/
def writeLengthPrefixD (n : Nat) (s : SignalledInjectionHasher) :
    Option SignalledInjectionHasher :=
  if n = SIGNALLED_LENGTH_PREFIX then some { s with state := .signalled }
  else if s.state = .notSignalled then
    some { s with hasher := s.hasher ++ [.lengthPre n] }
  else none

/-- `Hasher::finish` (debug): the injected hash in state `HashSignaled`;
otherwise asserts `NotSignalled` and returns the wrapped result. -/
def finishD (finishU : List WriteEv → Nat) (s : SignalledInjectionHasher) : Option Nat :=
  match s.state with
  | .hashSignaled h => some h
  | st => if st = .notSignalled then some (finishU s.hasher) else none

/-- `signal_inject_hash` (debug order):
`write_length_prefix(SIGNALLED_LENGTH_PREFIX)` then `write_u64(hash)`. -/
def signalInjectHashD (hash : Nat) (s : SignalledInjectionHasher) :
    Option SignalledInjectionHasher :=
  (writeLengthPrefixD SIGNALLED_LENGTH_PREFIX s).bind (writeU64D hash)

/-- Applies a list of ordinary write calls (release build): the pass the
cache's `Key::new_from_hasher` performs when it hashes a raw key `k`
through the wrapper, and the pass `Kwrap::hash` performs on `get`. -/
def applyWritesR (ws : List WriteEv) (s : SignalledInjectionHasher) :
    SignalledInjectionHasher :=
  match ws with
  | [] => s
  | .bytes bs :: rest => applyWritesR rest (writeBytesR bs s)
  | .u8 i :: rest => applyWritesR rest (writeU8R i s)
  | .u64 i :: rest => applyWritesR rest (writeU64R i s)
  | .usizeW i :: rest => applyWritesR rest (writeUsizeR i s)
  | .lengthPre n :: rest => applyWritesR rest (writeLengthPrefixR n s)
  | .str t :: rest => applyWritesR rest (writeStrR t s)

/-! ## Token types (`src/shared_hash.rs`)

`u64` fingerprints and the generic insertion index `I` are `Nat`. -/

/-- `struct Key<K> { hash: u64, k: K }` — a key token: the raw key plus
its precomputed fingerprint. `Key::hash` injects `hash` via
`signal_inject_hash`. -/
structure KeyTok (K : Type) where
  hash : Nat
  k : K
deriving DecidableEq

/-- `struct Idx<I> { hash: u64, idx: I }` — an index token: a recency
(insertion) index plus the entry's fingerprint. `Idx::hash` injects
`hash`; `PartialEq`/`Ord` use `idx` only. -/
structure IdxTok where
  hash : Nat
  idx : Nat
deriving DecidableEq

/-- `struct KeyAndIdx<K, I> { key: Key<K>, idx: Idx<I> }` — the entry
store's owned key. Its `Hash` injects `idx.hash`; its `PartialEq`
compares the `key` parts (`Key`'s derived equality: `hash`, then `k`). -/
structure KeyAndIdx (K : Type) where
  key : KeyTok K
  idx : IdxTok
deriving DecidableEq

/-- `Key::hash` (release build): drives the hasher through the injection
sequence with the token's precomputed fingerprint. -/
def hashKeyTokR {K : Type} (t : KeyTok K) (s : SignalledInjectionHasher) :
    SignalledInjectionHasher :=
  signalInjectHashR t.hash s

/-- `Idx::hash` (release build): injection with the token's fingerprint. -/
def hashIdxTokR (t : IdxTok) (s : SignalledInjectionHasher) :
    SignalledInjectionHasher :=
  signalInjectHashR t.hash s

/-! ## Entry store (`HashMap<KeyAndIdx<K, I>, V, SignalledBuildHasher>`)

The store is modelled as the list of its entries. A lookup probe reaches
an entry when the probe's hash equals the stored `KeyAndIdx` hash (both
are injected 64-bit values — the bucket condition) and the probe's
`PartialEq` accepts the entry (the final arbiter). The cache's
invariants (proved below) make every such match unique, so first-match
semantics coincide with the `HashMap`'s. -/

/-- First-match removal: `HashMap::remove_entry` returns the matched
(key, value) pair and the store without it. -/
def removeFirst {α : Type} (p : α → Prop) [DecidablePred p] :
    List α → Option (α × List α)
  | [] => none
  | a :: rest =>
    if p a then some (a, rest)
    else match removeFirst p rest with
      | some (b, rest') => some (b, a :: rest')
      | none => none

variable {K V : Type}

/-- The bucket-plus-equality condition for a `&Key<K>` probe (via
`Borrow<Key<K>>`): the stored hash (`KeyAndIdx::hash` injects
`self.idx.hash`) must equal the probe's injected `q.hash`, and `Key`'s
derived equality (`hash`, then `k`) must accept. -/
def keyProbe (q : KeyTok K) (e : KeyAndIdx K × V) : Prop :=
  e.1.idx.hash = q.hash ∧ e.1.key.hash = q.hash ∧ e.1.key.k = q.k

/-- The condition for an `&Idx<I>` probe (via `Borrow<Idx<I>>`): hashes
equal, and `Idx`'s equality (`idx` only) accepts. -/
def idxProbe (t : IdxTok) (e : KeyAndIdx K × V) : Prop :=
  e.1.idx.hash = t.hash ∧ e.1.idx.idx = t.idx

/-- The condition for a `&Kwrap<K>` probe (via `Borrow<Kwrap<K>>`,
`get`'s bare-key path): `Kwrap::hash` hashes `k` ordinarily, so the
probe hash is the fingerprint `fp k`; `Kwrap`'s equality compares the
raw keys only. -/
def kwrapProbe (fp : K → Nat) (k : K) (e : KeyAndIdx K × V) : Prop :=
  e.1.idx.hash = fp k ∧ e.1.key.k = k

instance (q : KeyTok K) [DecidableEq K] : DecidablePred (@keyProbe K V q) :=
  fun e => by unfold keyProbe; infer_instance

instance (t : IdxTok) : DecidablePred (@idxProbe K V t) :=
  fun e => by unfold idxProbe; infer_instance

instance (fp : K → Nat) (k : K) [DecidableEq K] :
    DecidablePred (@kwrapProbe K V fp k) :=
  fun e => by unfold kwrapProbe; infer_instance

/-- `HashMap::insert(key_and_idx, v)`: if an equal key is resident
(equal hash and `KeyAndIdx`-equality), the value is replaced and the
resident key kept (Rust: "the key is not updated"); otherwise the entry
is added. -/
def insertEntry [DecidableEq K] (n : KeyAndIdx K × V) :
    List (KeyAndIdx K × V) → List (KeyAndIdx K × V)
  | [] => [n]
  | e :: rest =>
    if e.1.idx.hash = n.1.idx.hash ∧ e.1.key.hash = n.1.key.hash ∧ e.1.key.k = n.1.key.k then
      (e.1, n.2) :: rest
    else e :: insertEntry n rest

/-- `HashMap::get(&idx)` — the non-removing lookup `get` ends with. -/
def getByIdx (t : IdxTok) : List (KeyAndIdx K × V) → Option V
  | [] => none
  | e :: rest => if idxProbe t e then some e.2 else getByIdx t rest

/-! ## Recency list (`indexes: Vec<Idx<I>>`) -/

/-- Models `self.indexes.binary_search(&t)` (by `Idx`'s `Ord`, i.e. on
the `idx` field) followed by `Vec::remove(pos)`, as one first-match
removal; `none` is the `unwrap()` panic on `Err`. On the sorted,
duplicate-free vectors the cache maintains (proved below) binary search
succeeds exactly when a token with that insertion index is present, and
position-removal removes exactly that token, so first-match semantics
coincide with the source's. -/
def removeIdxAt (i : Nat) (l : List IdxTok) : Option (IdxTok × List IdxTok) :=
  removeFirst (fun t => t.idx = i) l

/-! ## The cache (`DhCache`) -/

/-- `struct DhCache<K, V, I, ...>` (the `MOST_RECENT_FAST` / `RECYCLE`
const parameters are unused by the source's logic). The insertion index
type `I` is `Nat`; operations take the modelled `I::increment` as the
parameter `incr`. -/
structure DhCache (K V : Type) where
  max_size : Nat
  next_insertion_index : Nat
  key_and_idx_to_value : List (KeyAndIdx K × V)
  indexes : List IdxTok
deriving DecidableEq

/-- `InsertionIndex::accommodates` for `u8`: `Self::MAX as usize >= size`. -/
def u8Accommodates (size : Nat) : Prop := 255 ≥ size

instance : DecidablePred u8Accommodates := fun s => by
  unfold u8Accommodates; infer_instance

/-- `InsertionIndex::increment` for `u8` (`*self += 1`) under the
release profile, where `u8` addition wraps on overflow (the debug
profile aborts instead). -/
def incrementU8 (i : Nat) : Nat := (i + 1) % 256

/-- `DhCache::new(max_size)` after its `assert!(I::accommodates(max_size))`
passed (for the `Nat`-indexed model every capacity is accommodated). -/
def newCache (max_size : Nat) : DhCache K V :=
  { max_size := max_size
    next_insertion_index := 0
    key_and_idx_to_value := []
    indexes := [] }

/-- The shared tail of `put`: build `Idx::new(next_insertion_index,
key.hash)`, insert `{KeyAndIdx::new(key, idx), v}`, push the index
token, increment the counter. -/
def finishPut [DecidableEq K] (incr : Nat → Nat) (c : DhCache K V) (key : KeyTok K) (v : V)
    (store' : List (KeyAndIdx K × V)) (indexes' : List IdxTok) : DhCache K V :=
  let idx : IdxTok := ⟨key.hash, c.next_insertion_index⟩
  { c with
    key_and_idx_to_value := insertEntry (⟨key, idx⟩, v) store'
    indexes := indexes' ++ [idx]
    next_insertion_index := incr c.next_insertion_index }

/-- `DhCache::put(k, v)`. `fp k` is the fingerprint computed by
`Key::new_from_hasher` (one ordinary pass of `k` through the build
hasher). `none` models a panic (a failed `unwrap()`, or
`Vec::remove(0)` on an empty vector). -/
def put [DecidableEq K] (fp : K → Nat) (incr : Nat → Nat) (c : DhCache K V) (k : K) (v : V) :
    Option (DhCache K V) :=
  let key : KeyTok K := ⟨fp k, k⟩
  match removeFirst (keyProbe key) c.key_and_idx_to_value with
  | some (old, store') =>
    -- hit: remove the old recency record found by binary search
    match removeIdxAt old.1.idx.idx c.indexes with
    | none => none
    | some (_, indexes') => some (finishPut incr c key v store' indexes')
  | none =>
    if c.key_and_idx_to_value.length = c.max_size then
      -- at capacity: evict the least recently used
      match c.indexes with
      | [] => none
      | oldest :: rest =>
        match removeFirst (idxProbe oldest) c.key_and_idx_to_value with
        | none => none
        | some (_, store') => some (finishPut incr c key v store' rest)
    else some (finishPut incr c key v c.key_and_idx_to_value c.indexes)

/-- The hit tail of `get`: the removed entry is reinserted with its
insertion index overwritten in place (`key_and_idx.idx.idx =
self.next_insertion_index`), a fresh `Idx::new(next_insertion_index,
key_and_idx.idx.hash)` token is pushed, the counter is incremented, and
the result is re-read via `HashMap::get(&idx)` (no re-hash of the key). -/
def finishGet [DecidableEq K] (incr : Nat → Nat) (c : DhCache K V) (kai : KeyAndIdx K) (v : V)
    (store' : List (KeyAndIdx K × V)) (indexes' : List IdxTok) : DhCache K V × Option V :=
  let kai' : KeyAndIdx K := { kai with idx := { kai.idx with idx := c.next_insertion_index } }
  let idx : IdxTok := ⟨kai.idx.hash, c.next_insertion_index⟩
  let store'' := insertEntry (kai', v) store'
  ({ c with
     key_and_idx_to_value := store''
     indexes := indexes' ++ [idx]
     next_insertion_index := incr c.next_insertion_index },
   getByIdx idx store'')

/-- `DhCache::get(k)`. The lookup goes through the `Kwrap`
reinterpretation of `&k` (ordinary hashing, raw-key equality). Returns
`none` on a panic; otherwise the updated cache and `Option<&V>`. -/
def get [DecidableEq K] (fp : K → Nat) (incr : Nat → Nat) (c : DhCache K V) (k : K) :
    Option (DhCache K V × Option V) :=
  match removeFirst (kwrapProbe fp k) c.key_and_idx_to_value with
  | none => some (c, none)
  | some ((kai, v), store') =>
    match removeIdxAt kai.idx.idx c.indexes with
    | none => none
    | some (_, indexes') => some (finishGet incr c kai v store' indexes')

/-- `DhCache::get(k)` looking up by a freshly built full `Key` token
`{fp k, k}` instead of the `Kwrap` reinterpretation. Modelled from the
spec: "Look up by Key Token (or, in the optimized path, by a bare-key
reinterpretation carrying the same fingerprint — functionally
identical...)"; the source's `get` only has the optimized path (the
commented-out `Key::new_from_hasher` line). Identical to `get` except
for the probe. -/
def getViaKeyTok [DecidableEq K] (fp : K → Nat) (incr : Nat → Nat) (c : DhCache K V) (k : K) :
    Option (DhCache K V × Option V) :=
  match removeFirst (keyProbe (⟨fp k, k⟩ : KeyTok K)) c.key_and_idx_to_value with
  | none => some (c, none)
  | some ((kai, v), store') =>
    match removeIdxAt kai.idx.idx c.indexes with
    | none => none
    | some (_, indexes') => some (finishGet incr c kai v store' indexes')

/-- The cache states reachable through the public API (`new`, completed
`put`s and `get`s), for the monotone (`+ 1`, non-overflowing) insertion
index. -/
inductive Reachable [DecidableEq K] (fp : K → Nat) : DhCache K V → Prop where
  | new (max_size : Nat) : Reachable fp (newCache max_size)
  | put {c c' : DhCache K V} {k : K} {v : V} :
      Reachable fp c → put fp Nat.succ c k v = some c' → Reachable fp c'
  | get {c c' : DhCache K V} {k : K} {r : Option V} :
      Reachable fp c → get fp Nat.succ c k = some (c', r) → Reachable fp c'

/-! ## Basic lemmas about the store and list primitives -/

theorem removeFirst_eq_none {α : Type} {p : α → Prop} [DecidablePred p] {l : List α} :
    removeFirst p l = none ↔ ∀ a ∈ l, ¬ p a := by
  induction l with
  | nil => simp [removeFirst]
  | cons a rest ih =>
    by_cases h : p a
    · simp [removeFirst, h]
    · rw [removeFirst, if_neg h]
      cases hr : removeFirst p rest with
      | none =>
        have hrest := ih.mp hr
        constructor
        · intro _ x hx
          rcases List.mem_cons.mp hx with rfl | hx'
          exacts [h, hrest x hx']
        · intro _; rfl
      | some b =>
        constructor
        · intro hc; cases hc
        · intro hall
          exfalso
          have : removeFirst p rest = none := ih.mpr fun x hx => hall x (by simp [hx])
          rw [this] at hr; cases hr

theorem removeFirst_eq_some {α : Type} {p : α → Prop} [DecidablePred p] {l l' : List α} {a : α}
    (h : removeFirst p l = some (a, l')) :
    ∃ l1 l2, l = l1 ++ a :: l2 ∧ l' = l1 ++ l2 ∧ (∀ b ∈ l1, ¬ p b) ∧ p a := by
  induction l generalizing l' with
  | nil => simp [removeFirst] at h
  | cons x rest ih =>
    by_cases hx : p x
    · rw [removeFirst, if_pos hx] at h
      have h2 := Option.some.inj h
      have hax : x = a := congrArg Prod.fst h2
      have hl : rest = l' := congrArg Prod.snd h2
      subst hax; subst hl
      exact ⟨[], rest, rfl, rfl, by simp, hx⟩
    · rw [removeFirst, if_neg hx] at h
      cases hr : removeFirst p rest with
      | none => rw [hr] at h; cases h
      | some br =>
        obtain ⟨b, rest'⟩ := br
        rw [hr] at h
        have h2 := Option.some.inj h
        have hab : b = a := congrArg Prod.fst h2
        have hl : x :: rest' = l' := congrArg Prod.snd h2
        subst hab; subst hl
        obtain ⟨l1, l2, hrest, hrest', hl1, hpa⟩ := ih hr
        refine ⟨x :: l1, l2, by simp [hrest], by simp [hrest'], ?_, hpa⟩
        intro y hy
        rcases List.mem_cons.mp hy with rfl | hy'
        exacts [hx, hl1 y hy']

theorem removeFirst_isSome_of_mem {α : Type} {p : α → Prop} [DecidablePred p] {l : List α}
    {a : α} (ha : a ∈ l) (hpa : p a) : removeFirst p l ≠ none := by
  intro hn
  exact removeFirst_eq_none.mp hn a ha hpa

theorem removeFirst_congr {α : Type} {p q : α → Prop} [DecidablePred p] [DecidablePred q]
    {l : List α} (h : ∀ a ∈ l, p a ↔ q a) : removeFirst p l = removeFirst q l := by
  induction l with
  | nil => rfl
  | cons a rest ih =>
    have ha : p a ↔ q a := h a (by simp)
    have hr : removeFirst p rest = removeFirst q rest := ih fun x hx => h x (by simp [hx])
    by_cases hp : p a
    · rw [removeFirst, if_pos hp, removeFirst, if_pos (ha.mp hp)]
    · rw [removeFirst, if_neg hp, removeFirst, if_neg (fun hq => hp (ha.mpr hq)), hr]

theorem insertEntry_of_forall_ne [DecidableEq K] {n : KeyAndIdx K × V}
    {l : List (KeyAndIdx K × V)}
    (h : ∀ e ∈ l, ¬ (e.1.idx.hash = n.1.idx.hash ∧ e.1.key.hash = n.1.key.hash ∧
      e.1.key.k = n.1.key.k)) :
    insertEntry n l = l ++ [n] := by
  induction l with
  | nil => rfl
  | cons e rest ih =>
    rw [insertEntry, if_neg (h e (by simp)), ih fun x hx => h x (by simp [hx])]
    rfl

theorem getByIdx_append_last (t : IdxTok) (l : List (KeyAndIdx K × V)) (e : KeyAndIdx K × V)
    (h : ∀ f ∈ l, ¬ idxProbe t f) (he : idxProbe t e) :
    getByIdx t (l ++ [e]) = some e.2 := by
  induction l with
  | nil => simp [getByIdx, he]
  | cons f rest ih =>
    rw [List.cons_append, getByIdx, if_neg (h f (by simp))]
    exact ih fun x hx => h x (by simp [hx])

/-! ## The cache invariant -/

/-- The state invariant the cache maintains (spec §3, invariants 1–4):
the recency list is, up to order, exactly the stored entries' index
tokens; it is sorted strictly ascending and bounded by the insertion
counter; the store is within capacity with pairwise-distinct raw keys;
and every stored token carries the key's fingerprint in both its `key`
and `idx` parts. -/
structure Inv (fp : K → Nat) (c : DhCache K V) : Prop where
  perm : (c.key_and_idx_to_value.map (fun e => e.1.idx)).Perm c.indexes
  cap : c.key_and_idx_to_value.length ≤ c.max_size
  sorted : c.indexes.Pairwise (fun a b => a.idx < b.idx)
  bounded : ∀ t ∈ c.indexes, t.idx < c.next_insertion_index
  keys : c.key_and_idx_to_value.Pairwise (fun e1 e2 => e1.1.key.k ≠ e2.1.key.k)
  hashes : ∀ e ∈ c.key_and_idx_to_value,
    e.1.key.hash = fp e.1.key.k ∧ e.1.idx.hash = fp e.1.key.k

variable {fp : K → Nat} {c : DhCache K V}

theorem Inv.sizes (h : Inv fp c) :
    c.key_and_idx_to_value.length = c.indexes.length := by
  have := h.perm.length_eq
  simpa using this

theorem Inv.indexes_idx_nodup (h : Inv fp c) : (c.indexes.map IdxTok.idx).Nodup := by
  exact List.pairwise_map.mpr (h.sorted.imp fun hlt => Nat.ne_of_lt hlt)

theorem Inv.mem_indexes_of_mem_store (h : Inv fp c) {e : KeyAndIdx K × V}
    (he : e ∈ c.key_and_idx_to_value) : e.1.idx ∈ c.indexes :=
  h.perm.mem_iff.mp (List.mem_map.mpr ⟨e, he, rfl⟩)

theorem Inv.exists_entry_of_mem_indexes (h : Inv fp c) {t : IdxTok} (ht : t ∈ c.indexes) :
    ∃ e ∈ c.key_and_idx_to_value, e.1.idx = t := by
  have := h.perm.mem_iff.mpr ht
  obtain ⟨e, he, hq⟩ := List.mem_map.mp this
  exact ⟨e, he, hq⟩

theorem Inv.store_idx_bounded (h : Inv fp c) {e : KeyAndIdx K × V}
    (he : e ∈ c.key_and_idx_to_value) : e.1.idx.idx < c.next_insertion_index :=
  h.bounded _ (h.mem_indexes_of_mem_store he)

/-- Two recency-list tokens with equal insertion index coincide. -/
theorem Inv.indexes_inj (h : Inv fp c) {t t' : IdxTok} (ht : t ∈ c.indexes)
    (ht' : t' ∈ c.indexes) (hidx : t.idx = t'.idx) : t = t' :=
  List.inj_on_of_nodup_map h.indexes_idx_nodup ht ht' hidx

/-- A key-probe failure plus the fingerprint invariant rules the key out
of the store entirely. -/
theorem Inv.key_notin_of_probe_fail (h : Inv fp c) {k : K}
    (hfail : ∀ e ∈ c.key_and_idx_to_value, ¬ keyProbe (⟨fp k, k⟩ : KeyTok K) e)
    {e : KeyAndIdx K × V} (he : e ∈ c.key_and_idx_to_value) : e.1.key.k ≠ k := by
  intro hk
  obtain ⟨hkh, hih⟩ := h.hashes e he
  exact hfail e he ⟨by rw [hih, hk], by rw [hkh, hk], hk⟩

/-- Pairwise key distinctness in symmetric, any-two-members form. -/
theorem Inv.keys_ne (h : Inv fp c) {e1 e2 : KeyAndIdx K × V}
    (h1 : e1 ∈ c.key_and_idx_to_value) (h2 : e2 ∈ c.key_and_idx_to_value)
    (hne : e1 ≠ e2) : e1.1.key.k ≠ e2.1.key.k := by
  have hsymm : Symmetric (fun (a b : KeyAndIdx K × V) => a.1.key.k ≠ b.1.key.k) :=
    fun _ _ hab => Ne.symm hab
  exact h.keys.forall hsymm h1 h2 hne

/-- Distinct stored entries have distinct insertion indices. -/
theorem Inv.idxs_ne (h : Inv fp c) {e1 e2 : KeyAndIdx K × V}
    (h1 : e1 ∈ c.key_and_idx_to_value) (h2 : e2 ∈ c.key_and_idx_to_value)
    (hne : e1 ≠ e2) : e1.1.idx.idx ≠ e2.1.idx.idx := by
  have hidx : c.indexes.Pairwise (fun a b => a.idx ≠ b.idx) :=
    h.sorted.imp fun hlt => Nat.ne_of_lt hlt
  have hmap : (c.key_and_idx_to_value.map (fun e => e.1.idx)).Pairwise
      (fun a b => a.idx ≠ b.idx) :=
    (h.perm.pairwise_iff (fun hab => Ne.symm hab)).mpr hidx
  have hpw := List.pairwise_map.mp hmap
  have hsymmE : Symmetric (fun (a b : KeyAndIdx K × V) => a.1.idx.idx ≠ b.1.idx.idx) :=
    fun _ _ hab => Ne.symm hab
  exact hpw.forall hsymmE h1 h2 hne

/-! ## Removal decomposition corollaries -/

theorem removeFirst_perm {α : Type} {p : α → Prop} [DecidablePred p] {l l' : List α} {a : α}
    (h : removeFirst p l = some (a, l')) : l.Perm (a :: l') := by
  obtain ⟨l1, l2, rfl, rfl, -, -⟩ := removeFirst_eq_some h
  exact List.perm_middle

theorem removeFirst_sublist {α : Type} {p : α → Prop} [DecidablePred p] {l l' : List α} {a : α}
    (h : removeFirst p l = some (a, l')) : List.Sublist l' l := by
  obtain ⟨l1, l2, rfl, rfl, -, -⟩ := removeFirst_eq_some h
  exact (List.sublist_cons_self a l2).append_left l1

theorem removeFirst_length {α : Type} {p : α → Prop} [DecidablePred p] {l l' : List α} {a : α}
    (h : removeFirst p l = some (a, l')) : l'.length + 1 = l.length := by
  obtain ⟨l1, l2, rfl, rfl, -, -⟩ := removeFirst_eq_some h
  simp [Nat.add_assoc]

theorem removeFirst_mem {α : Type} {p : α → Prop} [DecidablePred p] {l l' : List α} {a : α}
    (h : removeFirst p l = some (a, l')) : a ∈ l ∧ p a := by
  obtain ⟨l1, l2, rfl, -, -, hpa⟩ := removeFirst_eq_some h
  exact ⟨by simp, hpa⟩

/-- After removing the (unique) entry whose raw key is `k`, no remaining
entry carries `k`. The hypothesis `hp` says the probe cannot miss an
entry whose raw key is `k` (true for both the `Key`-token and the
`Kwrap` probes once fingerprints are consistent). -/
theorem keys_ne_of_removeFirst {fp : K → Nat} {c : DhCache K V} (h : Inv fp c) {k : K}
    {p : KeyAndIdx K × V → Prop} [DecidablePred p] {old : KeyAndIdx K × V}
    {store' : List (KeyAndIdx K × V)}
    (hp : ∀ e ∈ c.key_and_idx_to_value, e.1.key.k = k → p e)
    (hkold : old.1.key.k = k)
    (hrm : removeFirst p c.key_and_idx_to_value = some (old, store')) :
    ∀ e ∈ store', e.1.key.k ≠ k := by
  obtain ⟨s1, s2, hdec, hdec', hfail, -⟩ := removeFirst_eq_some hrm
  subst hdec'
  intro e he hek
  rcases List.mem_append.mp he with h1 | h2
  · exact hfail e h1 (hp e (by rw [hdec]; exact List.mem_append.mpr (Or.inl h1)) hek)
  · have hpw := h.keys
    rw [hdec] at hpw
    have hright := (List.pairwise_append.mp hpw).2.1
    have := (List.pairwise_cons.mp hright).1 e h2
    rw [hkold, hek] at this
    exact this rfl

/-! ## Invariant preservation -/

/-- The common tail of `put` and `get`: a fresh entry whose index token
carries the current insertion counter and the key's fingerprint is
appended to a store/recency-list pair obtained by removals, and the
counter is incremented. -/
theorem append_entry_inv [DecidableEq K] {fp : K → Nat} {c : DhCache K V} (h : Inv fp c)
    (n : KeyAndIdx K × V) {store' : List (KeyAndIdx K × V)} {indexes' : List IdxTok}
    (hperm : (store'.map (fun e => e.1.idx)).Perm indexes')
    (hsub : List.Sublist store' c.key_and_idx_to_value)
    (hisub : List.Sublist indexes' c.indexes)
    (hlen : store'.length + 1 ≤ c.max_size)
    (hnok : ∀ e ∈ store', e.1.key.k ≠ n.1.key.k)
    (hkh : n.1.key.hash = fp n.1.key.k) (hih : n.1.idx.hash = fp n.1.key.k)
    (hidx : n.1.idx.idx = c.next_insertion_index) :
    Inv fp
      { c with
        key_and_idx_to_value := insertEntry n store',
        indexes := indexes' ++ [n.1.idx],
        next_insertion_index := Nat.succ c.next_insertion_index } := by
  have hins : insertEntry n store' = store' ++ [n] := by
    refine insertEntry_of_forall_ne fun e he hc => hnok e he ?_
    exact hc.2.2
  have hmemidx : ∀ t ∈ indexes', t.idx < c.next_insertion_index :=
    fun t ht => h.bounded t (hisub.subset ht)
  constructor
  · -- perm
    show ((insertEntry n store').map (fun e => e.1.idx)).Perm (indexes' ++ [n.1.idx])
    rw [hins, List.map_append]
    exact hperm.append_right [n.1.idx]
  · -- cap
    show (insertEntry n store').length ≤ c.max_size
    rw [hins]; simpa using hlen
  · -- sorted
    show (indexes' ++ [n.1.idx]).Pairwise (fun a b => a.idx < b.idx)
    refine List.pairwise_append.mpr ⟨List.Pairwise.sublist hisub h.sorted, by simp, ?_⟩
    intro a ha b hb
    rw [List.mem_singleton.mp hb, hidx]
    exact hmemidx a ha
  · -- bounded
    show ∀ t ∈ indexes' ++ [n.1.idx], t.idx < Nat.succ c.next_insertion_index
    intro t ht
    rcases List.mem_append.mp ht with h1 | h2
    · exact Nat.lt_succ_of_lt (hmemidx t h1)
    · rw [List.mem_singleton.mp h2, hidx]; exact Nat.lt_succ_self _
  · -- keys
    show (insertEntry n store').Pairwise (fun e1 e2 => e1.1.key.k ≠ e2.1.key.k)
    rw [hins]
    refine List.pairwise_append.mpr ⟨List.Pairwise.sublist hsub h.keys, by simp, ?_⟩
    intro a ha b hb
    rw [List.mem_singleton.mp hb]
    exact hnok a ha
  · -- hashes
    show ∀ e ∈ insertEntry n store',
      e.1.key.hash = fp e.1.key.k ∧ e.1.idx.hash = fp e.1.key.k
    rw [hins]
    intro e he
    rcases List.mem_append.mp he with h1 | h2
    · exact h.hashes e (hsub.subset h1)
    · rw [List.mem_singleton.mp h2]; exact ⟨hkh, hih⟩

/-- The recency record located for a stored entry's index token is that
entry's own token, and removing both keeps the store and list aligned. -/
theorem removeIdxAt_aligned {fp : K → Nat} {c : DhCache K V} (h : Inv fp c)
    {e : KeyAndIdx K × V} (he : e ∈ c.key_and_idx_to_value)
    {store' : List (KeyAndIdx K × V)} {t0 : IdxTok} {indexes' : List IdxTok}
    {p : KeyAndIdx K × V → Prop} [DecidablePred p]
    (hrm : removeFirst p c.key_and_idx_to_value = some (e, store'))
    (hri : removeIdxAt e.1.idx.idx c.indexes = some (t0, indexes')) :
    t0 = e.1.idx ∧ (store'.map (fun e => e.1.idx)).Perm indexes' := by
  rw [removeIdxAt] at hri
  have hmem := removeFirst_mem hri
  have ht0 : t0 = e.1.idx :=
    h.indexes_inj hmem.1 (h.mem_indexes_of_mem_store he) hmem.2
  refine ⟨ht0, ?_⟩
  have hp1 : (c.key_and_idx_to_value.map (fun e => e.1.idx)).Perm (e.1.idx :: store'.map (fun e => e.1.idx)) := by
    have := (removeFirst_perm hrm).map (fun e => e.1.idx)
    simpa using this
  have hp2 : c.indexes.Perm (e.1.idx :: indexes') := by
    have := removeFirst_perm hri
    rwa [ht0] at this
  exact ((hp1.symm.trans h.perm).trans hp2).cons_inv

theorem newCache_inv {fp : K → Nat} (m : Nat) : Inv fp (newCache m : DhCache K V) := by
  constructor <;> simp [newCache]

theorem idxTok_ext {a b : IdxTok} (h1 : a.hash = b.hash) (h2 : a.idx = b.idx) : a = b := by
  cases a; cases b; simp_all

/-- `append_entry_inv` specialised to `put`'s tail `finishPut`. -/
theorem finishPut_inv [DecidableEq K] {fp : K → Nat} {c : DhCache K V} (h : Inv fp c)
    {k : K} {v : V} {store' : List (KeyAndIdx K × V)} {indexes' : List IdxTok}
    (hperm : (store'.map (fun e => e.1.idx)).Perm indexes')
    (hsub : List.Sublist store' c.key_and_idx_to_value)
    (hisub : List.Sublist indexes' c.indexes)
    (hlen : store'.length + 1 ≤ c.max_size)
    (hnok : ∀ e ∈ store', e.1.key.k ≠ k) :
    Inv fp (finishPut Nat.succ c ⟨fp k, k⟩ v store' indexes') := by
  have hr := append_entry_inv h
    ((⟨⟨fp k, k⟩, ⟨fp k, c.next_insertion_index⟩⟩ : KeyAndIdx K), v)
    hperm hsub hisub hlen hnok rfl rfl rfl
  exact hr

/-- `append_entry_inv` specialised to `get`'s hit tail `finishGet`. -/
theorem finishGet_inv [DecidableEq K] {fp : K → Nat} {c : DhCache K V} (h : Inv fp c)
    {kai : KeyAndIdx K} {v : V} {store' : List (KeyAndIdx K × V)} {indexes' : List IdxTok}
    (hperm : (store'.map (fun e => e.1.idx)).Perm indexes')
    (hsub : List.Sublist store' c.key_and_idx_to_value)
    (hisub : List.Sublist indexes' c.indexes)
    (hlen : store'.length + 1 ≤ c.max_size)
    (hnok : ∀ e ∈ store', e.1.key.k ≠ kai.key.k)
    (hkh : kai.key.hash = fp kai.key.k) (hih : kai.idx.hash = fp kai.key.k) :
    Inv fp (finishGet Nat.succ c kai v store' indexes').1 := by
  have hr := append_entry_inv h
    (({ kai with idx := { kai.idx with idx := c.next_insertion_index } } : KeyAndIdx K), v)
    hperm hsub hisub hlen hnok hkh hih rfl
  exact hr

theorem put_inv [DecidableEq K] {fp : K → Nat} {c c' : DhCache K V} (h : Inv fp c) {k : K}
    {v : V} (hp : put fp Nat.succ c k v = some c') : Inv fp c' := by
  simp only [put] at hp
  split at hp
  next old store' hrm =>
    -- hit: the key was present
    split at hp
    next => exact absurd hp (by simp)
    next t0 indexes' hri =>
      obtain ⟨hmem, hprobe⟩ := removeFirst_mem hrm
      obtain ⟨ht0, hperm⟩ := removeIdxAt_aligned h hmem hrm hri
      rw [removeIdxAt] at hri
      have hc' : c' = finishPut Nat.succ c ⟨fp k, k⟩ v store' indexes' :=
        (Option.some.inj hp).symm
      subst hc'
      refine finishPut_inv h hperm (removeFirst_sublist hrm)
        (removeFirst_sublist hri) ?_ ?_
      · rw [removeFirst_length hrm]; exact h.cap
      · exact keys_ne_of_removeFirst h
          (fun e he hek => ⟨(h.hashes e he).2.trans (by rw [hek]),
            (h.hashes e he).1.trans (by rw [hek]), hek⟩)
          hprobe.2.2 hrm
  next hrm =>
    -- miss
    have hnok : ∀ e ∈ c.key_and_idx_to_value, e.1.key.k ≠ k :=
      fun e he => h.key_notin_of_probe_fail (removeFirst_eq_none.mp hrm) he
    split at hp
    next hfull =>
      -- at capacity: eviction
      split at hp
      next => exact absurd hp (by simp)
      next oldest rest hidx =>
        split at hp
        next => exact absurd hp (by simp)
        next ev store' hev =>
          obtain ⟨hmemev, hprobeev⟩ := removeFirst_mem hev
          have hevidx : ev.1.idx = oldest := idxTok_ext hprobeev.1 hprobeev.2
          have hc' : c' = finishPut Nat.succ c ⟨fp k, k⟩ v store' rest :=
            (Option.some.inj hp).symm
          subst hc'
          have hperm : (store'.map (fun e => e.1.idx)).Perm rest := by
            have hp1 : (c.key_and_idx_to_value.map (fun e => e.1.idx)).Perm
                (ev.1.idx :: store'.map (fun e => e.1.idx)) := by
              have := (removeFirst_perm hev).map (fun e => e.1.idx)
              simpa using this
            have hp2 : c.indexes = ev.1.idx :: rest := by rw [hevidx, hidx]
            have := (hp1.symm.trans h.perm).trans (by rw [hp2] : c.indexes.Perm (ev.1.idx :: rest))
            exact this.cons_inv
          refine finishPut_inv h hperm (removeFirst_sublist hev) ?_ ?_ ?_
          · rw [hidx]; exact List.sublist_cons_self oldest rest
          · rw [removeFirst_length hev, hfull]
          · exact fun e he => hnok e ((removeFirst_sublist hev).subset he)
    next hfull =>
      have hc' : c' = finishPut Nat.succ c ⟨fp k, k⟩ v c.key_and_idx_to_value c.indexes :=
        (Option.some.inj hp).symm
      subst hc'
      refine finishPut_inv h h.perm (List.Sublist.refl _) (List.Sublist.refl _) ?_ hnok
      exact Nat.succ_le_of_lt (Nat.lt_of_le_of_ne h.cap hfull)

theorem get_inv [DecidableEq K] {fp : K → Nat} {c c' : DhCache K V} (h : Inv fp c) {k : K}
    {r : Option V} (hg : get fp Nat.succ c k = some (c', r)) : Inv fp c' := by
  simp only [get] at hg
  split at hg
  next hrm =>
    have hcc : c = c' := congrArg Prod.fst (Option.some.inj hg)
    rwa [← hcc]
  next kai v store' hrm =>
    split at hg
    next => exact absurd hg (by simp)
    next t0 indexes' hri =>
      obtain ⟨hmem, hprobe⟩ := removeFirst_mem hrm
      obtain ⟨ht0, hperm⟩ := removeIdxAt_aligned h hmem hrm hri
      rw [removeIdxAt] at hri
      have hc2 : (finishGet Nat.succ c kai v store' indexes').1 = c' :=
        congrArg Prod.fst (Option.some.inj hg)
      rw [← hc2]
      have hhash := h.hashes (kai, v) hmem
      have hkeysne : ∀ e ∈ store', e.1.key.k ≠ k :=
        keys_ne_of_removeFirst h
          (fun e he hek => ⟨(h.hashes e he).2.trans (by rw [hek]), hek⟩)
          hprobe.2 hrm
      refine finishGet_inv h hperm (removeFirst_sublist hrm) (removeFirst_sublist hri)
        ?_ ?_ hhash.1 hhash.2
      · rw [removeFirst_length hrm]; exact h.cap
      · exact fun e he hek => hkeysne e he (hek.trans hprobe.2)

/-- Every reachable cache state satisfies the invariant. -/
theorem reachable_inv [DecidableEq K] {fp : K → Nat} {c : DhCache K V}
    (h : Reachable fp c) : Inv fp c := by
  induction h with
  | new m => exact newCache_inv m
  | put _ hp ih => exact put_inv ih hp
  | get _ hg ih => exact get_inv ih hg

/-- On an invariant-satisfying cache with positive capacity, `put` never
panics: the binary search, the eviction lookup and `Vec::remove(0)` all
succeed. -/
theorem put_succeeds [DecidableEq K] {fp : K → Nat} {c : DhCache K V} (h : Inv fp c)
    (hpos : 0 < c.max_size) (k : K) (v : V) : ∃ c', put fp Nat.succ c k v = some c' := by
  simp only [put]
  cases hrm : removeFirst (keyProbe (⟨fp k, k⟩ : KeyTok K)) c.key_and_idx_to_value with
  | some res =>
    obtain ⟨old, store'⟩ := res
    have hmem := (removeFirst_mem hrm).1
    have hin : old.1.idx ∈ c.indexes := h.mem_indexes_of_mem_store hmem
    have hne : removeIdxAt old.1.idx.idx c.indexes ≠ none := by
      rw [removeIdxAt]
      exact removeFirst_isSome_of_mem hin rfl
    cases hri : removeIdxAt old.1.idx.idx c.indexes with
    | none => exact absurd hri hne
    | some tr =>
      obtain ⟨t0, indexes'⟩ := tr
      exact ⟨finishPut Nat.succ c ⟨fp k, k⟩ v store' indexes', by simp only [hrm, hri]⟩
  | none =>
    by_cases hfull : c.key_and_idx_to_value.length = c.max_size
    · cases hidx : c.indexes with
      | nil =>
        exfalso
        have hs := h.sizes
        rw [hidx] at hs
        simp only [List.length_nil] at hs
        rw [hs] at hfull
        omega
      | cons oldest rest =>
        obtain ⟨e, he, heidx⟩ := h.exists_entry_of_mem_indexes
          (by rw [hidx]; exact List.mem_cons_self oldest rest)
        have hne : removeFirst (idxProbe oldest) c.key_and_idx_to_value ≠ none :=
          removeFirst_isSome_of_mem he (by rw [← heidx]; exact ⟨rfl, rfl⟩)
        cases hev : removeFirst (idxProbe oldest) c.key_and_idx_to_value with
        | none => exact absurd hev hne
        | some evr =>
          obtain ⟨ev, store'⟩ := evr
          exact ⟨finishPut Nat.succ c ⟨fp k, k⟩ v store' rest,
            by simp only [hrm, if_pos hfull, hidx, hev]⟩
    · exact ⟨finishPut Nat.succ c ⟨fp k, k⟩ v c.key_and_idx_to_value c.indexes,
        by simp only [hrm, if_neg hfull]⟩

/-- `get` on a stored key hits that entry and returns its value. -/
theorem get_hit [DecidableEq K] {fp : K → Nat} {c : DhCache K V} (h : Inv fp c)
    {e0 : KeyAndIdx K × V} (he : e0 ∈ c.key_and_idx_to_value) {k : K}
    (hk : e0.1.key.k = k) :
    ∃ c', get fp Nat.succ c k = some (c', some e0.2) := by
  have hprobe0 : kwrapProbe fp k e0 := ⟨(h.hashes e0 he).2.trans (by rw [hk]), hk⟩
  simp only [get]
  cases hrm : removeFirst (kwrapProbe fp k) c.key_and_idx_to_value with
  | none => exact absurd hrm (removeFirst_isSome_of_mem he hprobe0)
  | some res =>
    obtain ⟨⟨kai, v⟩, store'⟩ := res
    -- the found entry is e0 itself (keys are pairwise distinct)
    have hpr := (removeFirst_mem hrm).2
    have he0 : (kai, v) = e0 := by
      by_contra hne
      have hkk : (kai, v).1.key.k = e0.1.key.k := hpr.2.trans hk.symm
      exact h.keys_ne (removeFirst_mem hrm).1 he hne hkk
    have hkai : kai = e0.1 := congrArg Prod.fst he0
    have hv : v = e0.2 := congrArg Prod.snd he0
    have hmemidx : kai.idx ∈ c.indexes := by
      rw [hkai]
      exact h.mem_indexes_of_mem_store he
    have hrine : removeIdxAt kai.idx.idx c.indexes ≠ none := by
      rw [removeIdxAt]
      exact removeFirst_isSome_of_mem hmemidx rfl
    cases hri : removeIdxAt kai.idx.idx c.indexes with
    | none => exact absurd hri hrine
    | some tr =>
      obtain ⟨t0, indexes'⟩ := tr
      have hkeysne : ∀ e ∈ store', e.1.key.k ≠ k :=
        keys_ne_of_removeFirst h
          (fun e hee hek => ⟨(h.hashes e hee).2.trans (by rw [hek]), hek⟩)
          hpr.2 hrm
      have h2 : (finishGet Nat.succ c kai v store' indexes').2 = some e0.2 := by
        show getByIdx ⟨kai.idx.hash, c.next_insertion_index⟩
          (insertEntry ({ kai with idx := { kai.idx with idx := c.next_insertion_index } }, v)
            store') = some e0.2
        have hins : insertEntry
            ({ kai with idx := { kai.idx with idx := c.next_insertion_index } }, v) store' =
            store' ++ [({ kai with idx := { kai.idx with idx := c.next_insertion_index } }, v)] := by
          refine insertEntry_of_forall_ne fun e hee hc => hkeysne e hee ?_
          exact hc.2.2.trans hpr.2
        rw [hins]
        have hlast := getByIdx_append_last ⟨kai.idx.hash, c.next_insertion_index⟩ store'
          ({ kai with idx := { kai.idx with idx := c.next_insertion_index } }, v) ?_ ?_
        · rw [hlast, hv]
        · intro f hf hpf
          have hflt : f.1.idx.idx < c.next_insertion_index :=
            h.store_idx_bounded ((removeFirst_sublist hrm).subset hf)
          rw [hpf.2] at hflt
          exact absurd hflt (Nat.lt_irrefl _)
        · exact ⟨rfl, rfl⟩
      refine ⟨(finishGet Nat.succ c kai v store' indexes').1, ?_⟩
      simp only [hrm, hri]
      rw [← h2]

/-- The concrete state reached by `put(0, 0)` on a fresh capacity-2
cache with `fp = id` (used by claim witnesses). -/
def witState2 : DhCache Nat Nat :=
  { max_size := 2, next_insertion_index := 1,
    key_and_idx_to_value := [(⟨⟨0, 0⟩, ⟨0, 0⟩⟩, 0)], indexes := [⟨0, 0⟩] }

/-- The concrete state reached by `put(0, 0)` on a fresh capacity-1
cache with `fp = id` (used by claim witnesses). -/
def witState1 : DhCache Nat Nat :=
  { max_size := 1, next_insertion_index := 1,
    key_and_idx_to_value := [(⟨⟨0, 0⟩, ⟨0, 0⟩⟩, 0)], indexes := [⟨0, 0⟩] }

/-! ## Claim theorems -/

/-- **C2**: for every 64-bit value `v`, the deliberate injection sequence
(`signal_inject_hash` with `v`) on a freshly built
`SignalledInjectionHasher` followed by `finish()` returns exactly `v`,
regardless of the wrapped accumulator's result (`finishU` arbitrary), in
both the release-order and the debug-order variant of the protocol; in
particular every `Key` token and every `Idx` token carrying fingerprint
`v` hashes to exactly `v`. -/
theorem c2_injection_returns_value {K : Type} (v : Nat) (finishU : List WriteEv → Nat)
    (t : KeyTok K) (u : IdxTok) :
    finishR finishU (signalInjectHashR v buildHasher) = v ∧
    signalInjectHashD v buildHasher = some ⟨[.u64 v], .hashSignaled v⟩ ∧
    (signalInjectHashD v buildHasher).bind (finishD finishU) = some v ∧
    finishR finishU (hashKeyTokR t buildHasher) = t.hash ∧
    finishR finishU (hashIdxTokR u buildHasher) = u.hash :=
  ⟨rfl, rfl, rfl, rfl, rfl⟩

/-- **C6** counterexample: the claim says any ordinary write returns the
adapter to `NotSignalled` from every state. After a completed injection
of `5`, the ordinary write `write_u8(7)` leaves the adapter in
`HashSignaled 5` — not `NotSignalled` — and `finish()` still returns the
injected `5`, not the wrapped accumulator's result (`0` here). -/
theorem c6_counterexample :
    (writeU8R 7 (signalInjectHashR 5 buildHasher)).state = SignalState.hashSignaled 5 ∧
    (writeU8R 7 (signalInjectHashR 5 buildHasher)).state ≠ SignalState.notSignalled ∧
    finishR (fun _ => 0) (writeU8R 7 (signalInjectHashR 5 buildHasher)) = 5 :=
  ⟨rfl, by decide, rfl⟩

/-- **C6** (amended): ordinary writes never change the adapter's signal
state (in the release build; the debug build instead asserts the state
is `NotSignalled`, so an ordinary write after a completed injection
aborts). Once a marker-completed injection reaches `HashSignaled(v)`,
`finish()` returns `v` verbatim even if ordinary writes follow. -/
theorem c6_amended (s : SignalledInjectionHasher) (i v : Nat) (bs : List Nat) (t : String)
    (finishU : List WriteEv → Nat) :
    ((writeU8R i s).state = s.state ∧ (writeBytesR bs s).state = s.state ∧
      (writeUsizeR i s).state = s.state ∧ (writeStrR t s).state = s.state) ∧
    finishR finishU (writeU8R i (signalInjectHashR v s)) = v ∧
    (∀ s', signalInjectHashD v s = some s' → writeU8D i s' = none) := by
  refine ⟨⟨rfl, rfl, rfl, rfl⟩, rfl, ?_⟩
  intro s' hs'
  have hs2 : some ({ hasher := s.hasher ++ [.u64 v], state := .hashSignaled v } :
      SignalledInjectionHasher) = some s' := by
    rw [← hs']
    rfl
  rw [← Option.some.inj hs2]
  rfl

/-- Witness for `c6_amended` at a concrete input, its hypothesis
discharged by `rfl`. -/
theorem c6_amended_witness :
    (((writeU8R 3 buildHasher).state = buildHasher.state ∧
        (writeBytesR [1] buildHasher).state = buildHasher.state ∧
        (writeUsizeR 3 buildHasher).state = buildHasher.state ∧
        (writeStrR "x" buildHasher).state = buildHasher.state) ∧
      finishR (fun _ => 0) (writeU8R 3 (signalInjectHashR 5 buildHasher)) = 5 ∧
      (∀ s', signalInjectHashD 5 buildHasher = some s' → writeU8D 3 s' = none)) ∧
    writeU8D 3 ⟨[.u64 5], .hashSignaled 5⟩ = none :=
  ⟨c6_amended buildHasher 3 5 [1] "x" (fun _ => 0),
   (c6_amended buildHasher 3 5 [1] "x" (fun _ => 0)).2.2 ⟨[.u64 5], .hashSignaled 5⟩ rfl⟩

/-- **C9**: `get` on a key not present in the cache returns absent and
leaves the whole cache state (store, recency list, counter, capacity)
literally unchanged — for any insertion-index `increment`. -/
theorem c9_get_miss_frame [DecidableEq K] (fp : K → Nat) (incr : Nat → Nat)
    (c : DhCache K V) (k : K)
    (habs : ∀ e ∈ c.key_and_idx_to_value, e.1.key.k ≠ k) :
    get fp incr c k = some (c, none) := by
  have hnone : removeFirst (kwrapProbe fp k) c.key_and_idx_to_value = none :=
    removeFirst_eq_none.mpr fun e he hp => habs e he hp.2
  simp only [get, hnone]

/-- Witness for `c9_get_miss_frame`: a concrete state and absent key. -/
theorem c9_witness :
    (∀ e ∈ (newCache 2 : DhCache Nat Nat).key_and_idx_to_value, e.1.key.k ≠ 0) ∧
    get id Nat.succ (newCache 2 : DhCache Nat Nat) 0 = some (newCache 2, none) :=
  ⟨by simp [newCache], c9_get_miss_frame id Nat.succ (newCache 2) 0 (by simp [newCache])⟩

/-- **C5** counterexample: `new(0)` is accepted (the `u8` `accommodates`
check passes for capacity 0), yet the very first `put` fails:
`self.indexes.remove(0)` panics on the empty recency list. The claim
"`put` always succeeds if construction succeeded" is false at
capacity 0. -/
theorem c5_counterexample :
    u8Accommodates 0 ∧ put id Nat.succ (newCache 0 : DhCache Nat Nat) 0 0 = none :=
  ⟨by decide, rfl⟩

/-- **C5** (amended): on every reachable cache whose capacity is at
least 1, `put` always succeeds — the binary search, the eviction lookup
and the front removal never fail. -/
theorem c5_amended [DecidableEq K] {fp : K → Nat} {c : DhCache K V}
    (h : Reachable fp c) (hpos : 0 < c.max_size) (k : K) (v : V) :
    ∃ c', put fp Nat.succ c k v = some c' :=
  put_succeeds (reachable_inv h) hpos k v

/-- Witness for `c5_amended` at a concrete capacity-1 cache. -/
theorem c5_amended_witness :
    (0 : Nat) < (newCache 1 : DhCache Nat Nat).max_size ∧
    ∃ c', put id Nat.succ (newCache 1 : DhCache Nat Nat) 0 0 = some c' :=
  ⟨by decide, c5_amended (Reachable.new 1) (by decide) 0 0⟩

/-- **C10**: in every reachable state, for any two stored `KeyAndIdx`
tokens, `KeyAndIdx`'s key equality (`Key`'s derived equality: `hash`,
then `k`) agrees with `Idx`'s index equality — the
`debug_assert_eq!(self.key == other.key, self.idx == other.idx)` inside
`KeyAndIdx::eq` never fails, because live entries have pairwise distinct
raw keys and pairwise distinct insertion indices. -/
theorem c10_eq_consistency [DecidableEq K] {fp : K → Nat} {c : DhCache K V}
    (h : Reachable fp c) :
    ∀ e1 ∈ c.key_and_idx_to_value, ∀ e2 ∈ c.key_and_idx_to_value,
      ((e1.1.key.hash = e2.1.key.hash ∧ e1.1.key.k = e2.1.key.k) ↔
        e1.1.idx.idx = e2.1.idx.idx) := by
  intro e1 h1 e2 h2
  have hinv := reachable_inv h
  by_cases he : e1 = e2
  · subst he; exact ⟨fun _ => rfl, fun _ => ⟨rfl, rfl⟩⟩
  · constructor
    · intro hkq; exact absurd hkq.2 (hinv.keys_ne h1 h2 he)
    · intro hiq; exact absurd hiq (hinv.idxs_ne h1 h2 he)

/-- Witness for `c10_eq_consistency` at the concrete reachable state
after `put(0, 0)` into a fresh capacity-2 cache. -/
theorem c10_witness :
    ((⟨⟨0, 0⟩, ⟨0, 0⟩⟩, 0) : KeyAndIdx Nat × Nat) ∈ witState2.key_and_idx_to_value ∧
    ((((⟨⟨0, 0⟩, ⟨0, 0⟩⟩, 0) : KeyAndIdx Nat × Nat).1.key.hash =
        ((⟨⟨0, 0⟩, ⟨0, 0⟩⟩, 0) : KeyAndIdx Nat × Nat).1.key.hash ∧
      ((⟨⟨0, 0⟩, ⟨0, 0⟩⟩, 0) : KeyAndIdx Nat × Nat).1.key.k =
        ((⟨⟨0, 0⟩, ⟨0, 0⟩⟩, 0) : KeyAndIdx Nat × Nat).1.key.k) ↔
      ((⟨⟨0, 0⟩, ⟨0, 0⟩⟩, 0) : KeyAndIdx Nat × Nat).1.idx.idx =
        ((⟨⟨0, 0⟩, ⟨0, 0⟩⟩, 0) : KeyAndIdx Nat × Nat).1.idx.idx) :=
  ⟨by decide,
   c10_eq_consistency
     (Reachable.put (Reachable.new 2)
       (show put id Nat.succ (newCache 2 : DhCache Nat Nat) 0 0 = some witState2 by decide))
     _ (by decide) _ (by decide)⟩

/-- **C3**: after every completed public operation the Entry Store and
the Recency List have the same cardinality, bounded by the capacity;
and on a full cache (positive capacity) a `put` of a fresh key succeeds,
keeps the size at capacity, and evicts exactly a least-recently-touched
(minimal-index) resident key. -/
theorem c3_sizes_and_eviction [DecidableEq K] {fp : K → Nat} {c : DhCache K V}
    (h : Reachable fp c) :
    (c.key_and_idx_to_value.length = c.indexes.length ∧
      c.key_and_idx_to_value.length ≤ c.max_size) ∧
    (∀ (k : K) (v : V), 0 < c.max_size → c.key_and_idx_to_value.length = c.max_size →
      (∀ e ∈ c.key_and_idx_to_value, e.1.key.k ≠ k) →
      ∃ c', put fp Nat.succ c k v = some c' ∧
        c'.key_and_idx_to_value.length = c.max_size ∧
        ∃ ev ∈ c.key_and_idx_to_value,
          (∀ e ∈ c.key_and_idx_to_value, ev.1.idx.idx ≤ e.1.idx.idx) ∧
          (∀ e' ∈ c'.key_and_idx_to_value, e'.1.key.k ≠ ev.1.key.k)) := by
  have hinv := reachable_inv h
  refine ⟨⟨hinv.sizes, hinv.cap⟩, ?_⟩
  intro k v hpos hfull habs
  have hrm : removeFirst (keyProbe (⟨fp k, k⟩ : KeyTok K)) c.key_and_idx_to_value = none :=
    removeFirst_eq_none.mpr fun e he hp => habs e he hp.2.2
  cases hidx : c.indexes with
  | nil =>
    exfalso
    have hs := hinv.sizes
    rw [hidx] at hs
    simp only [List.length_nil] at hs
    rw [hs] at hfull
    omega
  | cons oldest rest =>
    obtain ⟨e, he, heidx⟩ := hinv.exists_entry_of_mem_indexes
      (by rw [hidx]; exact List.mem_cons_self oldest rest)
    have hevne : removeFirst (idxProbe oldest) c.key_and_idx_to_value ≠ none :=
      removeFirst_isSome_of_mem he (by rw [← heidx]; exact ⟨rfl, rfl⟩)
    cases hev : removeFirst (idxProbe oldest) c.key_and_idx_to_value with
    | none => exact absurd hev hevne
    | some evr =>
      obtain ⟨ev, store'⟩ := evr
      obtain ⟨hmemev, hprobeev⟩ := removeFirst_mem hev
      have hevidx : ev.1.idx = oldest := idxTok_ext hprobeev.1 hprobeev.2
      refine ⟨finishPut Nat.succ c ⟨fp k, k⟩ v store' rest,
        by simp only [put, hrm, if_pos hfull, hidx, hev], ?_, ev, hmemev, ?_, ?_⟩
      · -- size stays at capacity
        have hins : insertEntry ((⟨⟨fp k, k⟩, ⟨fp k, c.next_insertion_index⟩⟩ : KeyAndIdx K), v)
            store' = store' ++ [((⟨⟨fp k, k⟩, ⟨fp k, c.next_insertion_index⟩⟩ : KeyAndIdx K), v)] := by
          refine insertEntry_of_forall_ne fun f hf hc => ?_
          exact habs f ((removeFirst_sublist hev).subset hf) hc.2.2
        show (insertEntry _ store').length = c.max_size
        rw [hins]
        have := removeFirst_length hev
        simp only [List.length_append, List.length_singleton]
        omega
      · -- minimality of the evicted index
        intro f hf
        have hfin : f.1.idx ∈ c.indexes := hinv.mem_indexes_of_mem_store hf
        rw [hidx] at hfin
        rw [hevidx]
        rcases List.mem_cons.mp hfin with hh | ht
        · rw [hh]
        · have hsor := hinv.sorted
          rw [hidx] at hsor
          exact Nat.le_of_lt ((List.pairwise_cons.mp hsor).1 _ ht)
      · -- the evicted key is gone afterwards
        obtain ⟨s1, s2, hdec, hdec', hfail, -⟩ := removeFirst_eq_some hev
        have hpw := hinv.keys
        rw [hdec] at hpw
        have hpa := List.pairwise_append.mp hpw
        have hs1 : ∀ a ∈ s1, a.1.key.k ≠ ev.1.key.k :=
          fun a ha => hpa.2.2 a ha ev (List.mem_cons_self _ _)
        have hs2 : ∀ b_1 ∈ s2, ev.1.key.k ≠ b_1.1.key.k := (List.pairwise_cons.mp hpa.2.1).1
        intro e' he'
        have hstore : (finishPut Nat.succ c ⟨fp k, k⟩ v store' rest).key_and_idx_to_value =
            insertEntry ((⟨⟨fp k, k⟩, ⟨fp k, c.next_insertion_index⟩⟩ : KeyAndIdx K), v) store' :=
          rfl
        rw [hstore] at he'
        have hins : insertEntry ((⟨⟨fp k, k⟩, ⟨fp k, c.next_insertion_index⟩⟩ : KeyAndIdx K), v)
            store' = store' ++ [((⟨⟨fp k, k⟩, ⟨fp k, c.next_insertion_index⟩⟩ : KeyAndIdx K), v)] := by
          refine insertEntry_of_forall_ne fun f hf hc => ?_
          exact habs f ((removeFirst_sublist hev).subset hf) hc.2.2
        rw [hins] at he'
        rcases List.mem_append.mp he' with hmem' | hnew
        · rw [hdec'] at hmem'
          rcases List.mem_append.mp hmem' with h1 | h2
          · exact hs1 e' h1
          · exact fun hq => hs2 e' h2 hq.symm
        · rw [List.mem_singleton.mp hnew]
          exact fun hq => habs ev hmemev hq.symm

/-- Witness for `c3_sizes_and_eviction`'s eviction clause: a full
capacity-1 cache receives a fresh key. -/
theorem c3_witness :
    (0 : Nat) < witState1.max_size ∧
    witState1.key_and_idx_to_value.length = witState1.max_size ∧
    (∀ e ∈ witState1.key_and_idx_to_value, e.1.key.k ≠ 1) ∧
    ∃ c', put id Nat.succ witState1 1 1 = some c' ∧
      c'.key_and_idx_to_value.length = witState1.max_size ∧
      ∃ ev ∈ witState1.key_and_idx_to_value,
        (∀ e ∈ witState1.key_and_idx_to_value, ev.1.idx.idx ≤ e.1.idx.idx) ∧
        (∀ e' ∈ c'.key_and_idx_to_value, e'.1.key.k ≠ ev.1.key.k) :=
  ⟨by decide, by decide, by decide,
   (c3_sizes_and_eviction
     (Reachable.put (Reachable.new 1)
       (show put id Nat.succ (newCache 1 : DhCache Nat Nat) 0 0 = some witState1 by decide))).2
     1 1 (by decide) (by decide) (by decide)⟩

/-- **C4**: on a reachable state holding key `k`, `put(k, v2)` succeeds,
leaves the size unchanged, makes a subsequent `get(k)` return `v2`, and
makes `k` most-recently-used: its new token closes the recency list and
carries a strictly larger insertion index than every other live entry. -/
theorem c4_replacement [DecidableEq K] {fp : K → Nat} {c : DhCache K V}
    (h : Reachable fp c) {k : K} (e0 : KeyAndIdx K × V)
    (he : e0 ∈ c.key_and_idx_to_value) (hk : e0.1.key.k = k) (v2 : V) :
    ∃ c', put fp Nat.succ c k v2 = some c' ∧
      c'.key_and_idx_to_value.length = c.key_and_idx_to_value.length ∧
      (∃ c'', get fp Nat.succ c' k = some (c'', some v2)) ∧
      c'.indexes.getLast? = some ⟨fp k, c.next_insertion_index⟩ ∧
      ∃ e' ∈ c'.key_and_idx_to_value, e'.1.key.k = k ∧
        ∀ e'' ∈ c'.key_and_idx_to_value, e''.1.key.k ≠ k →
          e''.1.idx.idx < e'.1.idx.idx := by
  have hinv := reachable_inv h
  have hprobe0 : keyProbe (⟨fp k, k⟩ : KeyTok K) e0 :=
    ⟨(hinv.hashes e0 he).2.trans (by rw [hk]), (hinv.hashes e0 he).1.trans (by rw [hk]), hk⟩
  cases hrm : removeFirst (keyProbe (⟨fp k, k⟩ : KeyTok K)) c.key_and_idx_to_value with
  | none => exact absurd hrm (removeFirst_isSome_of_mem he hprobe0)
  | some res =>
    obtain ⟨old, store'⟩ := res
    obtain ⟨hmem, hprobe⟩ := removeFirst_mem hrm
    have hin : old.1.idx ∈ c.indexes := hinv.mem_indexes_of_mem_store hmem
    have hrine : removeIdxAt old.1.idx.idx c.indexes ≠ none := by
      rw [removeIdxAt]
      exact removeFirst_isSome_of_mem hin rfl
    cases hri : removeIdxAt old.1.idx.idx c.indexes with
    | none => exact absurd hri hrine
    | some tr =>
      obtain ⟨t0, indexes'⟩ := tr
      have hput : put fp Nat.succ c k v2 =
          some (finishPut Nat.succ c ⟨fp k, k⟩ v2 store' indexes') := by
        simp only [put, hrm, hri]
      have hnok : ∀ e ∈ store', e.1.key.k ≠ k :=
        keys_ne_of_removeFirst hinv
          (fun e hee hek => ⟨(hinv.hashes e hee).2.trans (by rw [hek]),
            (hinv.hashes e hee).1.trans (by rw [hek]), hek⟩)
          hprobe.2.2 hrm
      have hins : insertEntry ((⟨⟨fp k, k⟩, ⟨fp k, c.next_insertion_index⟩⟩ : KeyAndIdx K), v2)
          store' = store' ++ [((⟨⟨fp k, k⟩, ⟨fp k, c.next_insertion_index⟩⟩ : KeyAndIdx K), v2)] :=
        insertEntry_of_forall_ne fun e hee hc => hnok e hee hc.2.2
      have hstore : (finishPut Nat.succ c ⟨fp k, k⟩ v2 store' indexes').key_and_idx_to_value =
          store' ++ [((⟨⟨fp k, k⟩, ⟨fp k, c.next_insertion_index⟩⟩ : KeyAndIdx K), v2)] := hins
      refine ⟨finishPut Nat.succ c ⟨fp k, k⟩ v2 store' indexes', hput, ?_, ?_, ?_, ?_⟩
      · -- size unchanged
        rw [hstore]
        have := removeFirst_length hrm
        simp only [List.length_append, List.length_singleton]
        omega
      · -- subsequent get returns v2
        have hinv' : Inv fp (finishPut Nat.succ c ⟨fp k, k⟩ v2 store' indexes') :=
          put_inv hinv hput
        have hmem' : ((⟨⟨fp k, k⟩, ⟨fp k, c.next_insertion_index⟩⟩ : KeyAndIdx K), v2) ∈
            (finishPut Nat.succ c ⟨fp k, k⟩ v2 store' indexes').key_and_idx_to_value := by
          rw [hstore]
          exact List.mem_append.mpr (Or.inr (List.mem_singleton_self _))
        exact get_hit hinv' hmem' rfl
      · -- the new token closes the recency list
        show (indexes' ++ [(⟨fp k, c.next_insertion_index⟩ : IdxTok)]).getLast? =
          some ⟨fp k, c.next_insertion_index⟩
        exact List.getLast?_concat _
      · -- strictly largest index among live entries
        refine ⟨((⟨⟨fp k, k⟩, ⟨fp k, c.next_insertion_index⟩⟩ : KeyAndIdx K), v2), ?_, rfl, ?_⟩
        · rw [hstore]
          exact List.mem_append.mpr (Or.inr (List.mem_singleton_self _))
        · intro e'' he'' hne
          rw [hstore] at he''
          rcases List.mem_append.mp he'' with h1 | h2
          · exact hinv.store_idx_bounded ((removeFirst_sublist hrm).subset h1)
          · exact absurd (congrArg (fun e => e.1.key.k) (List.mem_singleton.mp h2)) hne

/-- Witness for `c4_replacement`: replacing the value of the resident
key `0` in a concrete capacity-1 cache. -/
theorem c4_witness :
    ((⟨⟨0, 0⟩, ⟨0, 0⟩⟩, 0) : KeyAndIdx Nat × Nat) ∈ witState1.key_and_idx_to_value ∧
    (((⟨⟨0, 0⟩, ⟨0, 0⟩⟩, 0) : KeyAndIdx Nat × Nat)).1.key.k = 0 ∧
    ∃ c', put id Nat.succ witState1 0 7 = some c' ∧
      c'.key_and_idx_to_value.length = witState1.key_and_idx_to_value.length ∧
      (∃ c'', get id Nat.succ c' 0 = some (c'', some 7)) ∧
      c'.indexes.getLast? = some ⟨0, witState1.next_insertion_index⟩ ∧
      ∃ e' ∈ c'.key_and_idx_to_value, e'.1.key.k = 0 ∧
        ∀ e'' ∈ c'.key_and_idx_to_value, e''.1.key.k ≠ 0 →
          e''.1.idx.idx < e'.1.idx.idx :=
  ⟨by decide, by decide,
   c4_replacement
     (Reachable.put (Reachable.new 1)
       (show put id Nat.succ (newCache 1 : DhCache Nat Nat) 0 0 = some witState1 by decide))
     ((⟨⟨0, 0⟩, ⟨0, 0⟩⟩, 0) : KeyAndIdx Nat × Nat) (by decide) (by decide) 7⟩

/-- A `write_length_prefix` with an ordinary (non-marker) length is pure
pass-through: the event is forwarded and the state kept. -/
theorem writeLengthPrefixR_ordinary {n : Nat} (hn : n ≠ SIGNALLED_LENGTH_PREFIX)
    (s : SignalledInjectionHasher) :
    writeLengthPrefixR n s = { s with hasher := s.hasher ++ [.lengthPre n] } := by
  rw [writeLengthPrefixR]
  split
  next => rw [if_neg hn]
  next => rfl

/-- Ordinary traffic (no signal marker among the writes) passes through
the adapter verbatim and can never leave it in `HashSignaled`. -/
theorem applyWritesR_no_marker {ws : List WriteEv}
    (hws : WriteEv.lengthPre SIGNALLED_LENGTH_PREFIX ∉ ws) :
    ∀ s : SignalledInjectionHasher, (∀ h', s.state ≠ .hashSignaled h') →
      (applyWritesR ws s).hasher = s.hasher ++ ws ∧
      ∀ h', (applyWritesR ws s).state ≠ .hashSignaled h' := by
  induction ws with
  | nil => exact fun s hs => ⟨by simp [applyWritesR], hs⟩
  | cons w rest ih =>
    intro s hs
    have hrest : WriteEv.lengthPre SIGNALLED_LENGTH_PREFIX ∉ rest :=
      fun hmem => hws (List.mem_cons_of_mem _ hmem)
    cases w with
    | bytes bs =>
      have h1 := ih hrest (writeBytesR bs s) hs
      refine ⟨?_, h1.2⟩
      show (applyWritesR rest (writeBytesR bs s)).hasher = _
      rw [h1.1]
      simp [writeBytesR]
    | u8 i =>
      have h1 := ih hrest (writeU8R i s) hs
      refine ⟨?_, h1.2⟩
      show (applyWritesR rest (writeU8R i s)).hasher = _
      rw [h1.1]
      simp [writeU8R]
    | u64 i =>
      have h1 := ih hrest (writeU64R i s) (fun h' hq => nomatch hq)
      refine ⟨?_, h1.2⟩
      show (applyWritesR rest (writeU64R i s)).hasher = _
      rw [h1.1]
      simp [writeU64R]
    | usizeW i =>
      have h1 := ih hrest (writeUsizeR i s) hs
      refine ⟨?_, h1.2⟩
      show (applyWritesR rest (writeUsizeR i s)).hasher = _
      rw [h1.1]
      simp [writeUsizeR]
    | lengthPre n =>
      have hn : n ≠ SIGNALLED_LENGTH_PREFIX :=
        fun hq => hws (by rw [hq]; exact List.mem_cons_self _ _)
      have hwl := writeLengthPrefixR_ordinary hn s
      have h1 := ih hrest (writeLengthPrefixR n s) (by rw [hwl]; exact hs)
      refine ⟨?_, h1.2⟩
      show (applyWritesR rest (writeLengthPrefixR n s)).hasher = _
      rw [h1.1, hwl]
      simp
    | str t =>
      have h1 := ih hrest (writeStrR t s) hs
      refine ⟨?_, h1.2⟩
      show (applyWritesR rest (writeStrR t s)).hasher = _
      rw [h1.1]
      simp [writeStrR]

/-- `Kwrap::hash` on `get`, and `Key::new_from_hasher` on `put`: one
ordinary pass of the key's write traffic through a freshly built
wrapper, then `finish()`. This is the fingerprint. -/
def ordinaryHashR (finishU : List WriteEv → Nat) (ws : List WriteEv) : Nat :=
  finishR finishU (applyWritesR ws buildHasher)

/-- **C7**: the bare-key (`Kwrap`) lookup path agrees with the full
Key-token path. Hasher level: the ordinary hash of a key (no marker in
its traffic) is the wrapped accumulator's own result, and a Key token
carrying that fingerprint finishes to exactly the same value. Cache
level: on every reachable state, `get` through the `Kwrap` path equals
`get` through a full Key token — same hit/miss outcome, same value,
same final state. -/
theorem c7_bare_key_path {A : Type} [DecidableEq A] (B : Type) (fp : A → Nat) :
    (∀ (finishU : List WriteEv → Nat) (ws : List WriteEv) (k0 : A),
      WriteEv.lengthPre SIGNALLED_LENGTH_PREFIX ∉ ws →
      ordinaryHashR finishU ws = finishU ws ∧
      finishR finishU
          (hashKeyTokR (⟨ordinaryHashR finishU ws, k0⟩ : KeyTok A) buildHasher) =
        ordinaryHashR finishU ws) ∧
    (∀ {c : DhCache A B}, Reachable fp c → ∀ k : A,
      get fp Nat.succ c k = getViaKeyTok fp Nat.succ c k) := by
  constructor
  · intro finishU ws k0 hws
    have h1 := applyWritesR_no_marker hws buildHasher (fun h' hq => nomatch hq)
    constructor
    · have hfin : finishR finishU (applyWritesR ws buildHasher) =
          finishU (applyWritesR ws buildHasher).hasher := by
        rw [finishR]
        split
        next hsig heq => exact absurd heq (h1.2 hsig)
        next => rfl
      rw [ordinaryHashR, hfin, h1.1]
      simp [buildHasher]
    · rfl
  · intro c hre k
    have hinv := reachable_inv hre
    have hcong : removeFirst (kwrapProbe fp k) c.key_and_idx_to_value =
        removeFirst (keyProbe (⟨fp k, k⟩ : KeyTok A)) c.key_and_idx_to_value :=
      removeFirst_congr fun e he =>
        ⟨fun hp => ⟨hp.1, (hinv.hashes e he).1.trans (by rw [hp.2]), hp.2⟩,
         fun hp => ⟨hp.1, hp.2.2⟩⟩
    rw [get, getViaKeyTok, hcong]

/-- Witness for `c7_bare_key_path` at a concrete write list, fingerprint
function and reachable state. -/
theorem c7_witness :
    (WriteEv.lengthPre SIGNALLED_LENGTH_PREFIX ∉ [WriteEv.u8 5]) ∧
    (ordinaryHashR List.length [WriteEv.u8 5] = List.length [WriteEv.u8 5] ∧
      finishR List.length
          (hashKeyTokR (⟨ordinaryHashR List.length [WriteEv.u8 5], 3⟩ : KeyTok Nat)
            buildHasher) =
        ordinaryHashR List.length [WriteEv.u8 5]) ∧
    get id Nat.succ (newCache 2 : DhCache Nat Nat) 3 =
      getViaKeyTok id Nat.succ (newCache 2 : DhCache Nat Nat) 3 :=
  ⟨by decide,
   (c7_bare_key_path Nat id).1 List.length [WriteEv.u8 5] 3 (by decide),
   (c7_bare_key_path Nat id).2 (Reachable.new 2) 3⟩

/-- **C1**: on a capacity-2 cache with distinct keys `a`, `b`, `c` and
any fingerprint function, the sequence `put(a,1)`, `put(b,2)`, `get(a)`,
`put(c,3)` completes with `get(a)` hitting `1` in between, leaves
exactly the keys `[a, c]` resident (so `b` and only `b` was evicted),
and afterwards `get(a) = 1`, `get(b)` is absent, `get(c) = 3`. -/
theorem c1_scenario [DecidableEq K] (fp : K → Nat) (a b c : K)
    (hab : a ≠ b) (hac : a ≠ c) (hbc : b ≠ c) :
    ((put fp Nat.succ (newCache 2 : DhCache K Nat) a 1).bind fun s1 =>
      (put fp Nat.succ s1 b 2).bind fun s2 =>
      (get fp Nat.succ s2 a).bind fun pr =>
      (put fp Nat.succ pr.1 c 3).bind fun s4 =>
      (get fp Nat.succ s4 a).bind fun pa =>
      (get fp Nat.succ pa.1 b).bind fun pb =>
      (get fp Nat.succ pb.1 c).map fun pc =>
        (pr.2, s4.key_and_idx_to_value.map (fun e => e.1.key.k), pa.2, pb.2, pc.2)) =
      some (some 1, [a, c], some 1, none, some 3) := by
  simp [put, get, newCache, finishPut, finishGet, removeFirst, removeIdxAt, insertEntry,
    getByIdx, keyProbe, idxProbe, kwrapProbe, hab, hac, hbc,
    hab.symm, hac.symm, hbc.symm]

/-- Witness for `c1_scenario` at the concrete keys `0`, `1`, `2` with
the identity fingerprint. -/
theorem c1_witness :
    ((0 : Nat) ≠ 1 ∧ (0 : Nat) ≠ 2 ∧ (1 : Nat) ≠ 2) ∧
    ((put id Nat.succ (newCache 2 : DhCache Nat Nat) 0 1).bind fun s1 =>
      (put id Nat.succ s1 1 2).bind fun s2 =>
      (get id Nat.succ s2 0).bind fun pr =>
      (put id Nat.succ pr.1 2 3).bind fun s4 =>
      (get id Nat.succ s4 0).bind fun pa =>
      (get id Nat.succ pa.1 1).bind fun pb =>
      (get id Nat.succ pb.1 2).map fun pc =>
        (pr.2, s4.key_and_idx_to_value.map (fun e => e.1.key.k), pa.2, pb.2, pc.2)) =
      some (some 1, [0, 2], some 1, none, some 3) :=
  ⟨⟨by decide, by decide, by decide⟩,
   c1_scenario id 0 1 2 (by decide) (by decide) (by decide)⟩

/-- **C8** counterexample: with the cited `u8` insertion index
(`*self += 1`, which wraps modulo 256 in release builds — the debug
build aborts at the 256th touch instead), 256 alternating puts of two
keys followed by a put of a third key on a capacity-2 cache leave the
recency list as index tokens `[⟨1, 255⟩, ⟨2, 0⟩]` — insertion indices
`[255, 0]`, not sorted ascending. "Arbitrarily long sequences" is
therefore false for the `u8` instantiation. -/
theorem c8_counterexample :
    ((List.range 256).map (fun i => i % 2) ++ [2]).foldl
        (fun (st : Option (DhCache Nat Nat)) k => st.bind fun s => put id incrementU8 s k k)
        (some (newCache 2)) =
      some { max_size := 2, next_insertion_index := 1,
             key_and_idx_to_value := [(⟨⟨1, 1⟩, ⟨1, 255⟩⟩, 1), (⟨⟨2, 2⟩, ⟨2, 0⟩⟩, 2)],
             indexes := [⟨1, 255⟩, ⟨2, 0⟩] } ∧
    ¬ ([⟨1, 255⟩, ⟨2, 0⟩] : List IdxTok).Pairwise (fun a b => a.idx < b.idx) := by
  constructor
  · set_option maxRecDepth 10000 in decide
  · intro hp
    exact absurd ((List.pairwise_cons.mp hp).1 _ (List.mem_singleton_self _)) (by decide)

/-- **C8** (amended): with the monotone, non-overflowing insertion
counter (every touch assigns a strictly fresh index — true for any run
in which the index type's maximum is never exceeded), after every
completed operation the recency list is sorted strictly ascending with
no duplicate insertion indices. -/
theorem c8_sorted_no_dup [DecidableEq K] {fp : K → Nat} {c : DhCache K V}
    (h : Reachable fp c) :
    c.indexes.Pairwise (fun a b => a.idx < b.idx) ∧ (c.indexes.map IdxTok.idx).Nodup :=
  ⟨(reachable_inv h).sorted, (reachable_inv h).indexes_idx_nodup⟩

/-- Witness for `c8_sorted_no_dup` at a concrete reachable state. -/
theorem c8_witness :
    witState2.indexes.Pairwise (fun a b => a.idx < b.idx) ∧
    (witState2.indexes.map IdxTok.idx).Nodup :=
  c8_sorted_no_dup
    (Reachable.put (Reachable.new 2)
      (show put id Nat.succ (newCache 2 : DhCache Nat Nat) 0 0 = some witState2 by decide))

end LruCache
